import Mathlib

/-!
Verification development for the refcount-insertion pass in
`src/codegen/irgen/refcounts.cpp`.

The pass is a backwards dataflow over an LLVM CFG.  The definitions below are a
shallow embedding of the functions and loop bodies of that file; each carries a
comment naming the source lines it embeds.  LLVM values are modelled as
identifiers tagged with the kind information the pass inspects
(argument / global / constant-null / undef / other constant / instruction
result); instructions within a block are modelled by their position, so the
`getNextNode()` of instruction `i` is `i + 1`.
-/

set_option maxHeartbeats 1000000

namespace Refcounts

/-- `RefType` (core/types.h): the reference discipline of a tracked value. -/
inductive RefType
| OWNED
| BORROWED
| UNKNOWN
deriving DecidableEq

/-- The kinds of LLVM values the pass distinguishes.  In LLVM, global
variables, constant null pointers, undef values and other constants are all
`llvm::Constant`s; arguments and instruction results are not. -/
inductive VKind
| argument
| globalVar
| constNull
| undefV
| otherConst
| instResult
deriving DecidableEq

/-- An LLVM value: an identity plus the kind information the pass inspects. -/
structure Value where
  id : Nat
  kind : VKind
deriving DecidableEq

/-- `llvm::isa<llvm::UndefValue>(v)`. -/
def isUndefValue (v : Value) : Bool :=
  match v.kind with
  | VKind.undefV => true
  | _ => false

/-- `llvm::isa<llvm::ConstantPointerNull>(v)`. -/
def isConstantPointerNull (v : Value) : Bool :=
  match v.kind with
  | VKind.constNull => true
  | _ => false

/-- `llvm::isa<llvm::GlobalVariable>(v)`. -/
def isGlobalVariable (v : Value) : Bool :=
  match v.kind with
  | VKind.globalVar => true
  | _ => false

/-- `llvm::isa<llvm::Constant>(v)`.  Globals, constant nulls, undefs and other
constants are all `llvm::Constant`s in the LLVM class hierarchy. -/
def isLLVMConstant (v : Value) : Bool :=
  match v.kind with
  | VKind.globalVar => true
  | VKind.constNull => true
  | VKind.undefV => true
  | VKind.otherConst => true
  | _ => false

/-- Whether `v` is one of the function arguments (the `f->args()` scan at
lines 1175-1180 of refcounts.cpp). -/
def isFuncArg (v : Value) : Bool :=
  match v.kind with
  | VKind.argument => true
  | _ => false

/-- The per-value annotation (`RefcountTracker::RefcountState`): discipline and
nullability. -/
structure VarState where
  reftype : RefType
  nullable : Bool
deriving DecidableEq

/-- `OrderedMap<llvm::Value*, int>` (refcounts.cpp lines 425-485, typedef
`BlockMap` at line 693): a map whose iteration order is insertion order,
modelled as an association list in insertion order. -/
abbrev BlockMap := List (Value × Nat)

/-- `map.find(k)` of the `OrderedMap`: the stored count of `k`, if present. -/
def bmFind : BlockMap → Value → Option Nat
  | [], _ => none
  | p :: rest, k => if p.1 = k then some p.2 else bmFind rest k

/-- `s_info.first->count(v) ? (*s_info.first)[v] : 0`: a count lookup where a
missing entry reads as zero. -/
def bmGetD (m : BlockMap) (k : Value) : Nat :=
  (bmFind m k).getD 0

/-- `OrderedMap::operator[]` used as an assignment `m[k] = n`: overwrite if the
key is present (keeping its position in the order), else append. -/
def bmSet : BlockMap → Value → Nat → BlockMap
  | [], k, n => [(k, n)]
  | p :: rest, k, n => if p.1 = k then (k, n) :: rest else p :: bmSet rest k n

/-- `OrderedMap::erase` (lines 451-455): drop the entry for `k`, preserving the
order of the remaining entries. -/
def bmErase : BlockMap → Value → BlockMap
  | [], _ => []
  | p :: rest, k => if p.1 = k then bmErase rest k else p :: bmErase rest k

/-- The keys of a `BlockMap`, in insertion order. -/
def bmKeys (m : BlockMap) : List Value :=
  m.map Prod.fst

/-- `endingRefsDifferent` (refcounts.cpp lines 694-704): report whether two
per-block ref maps differ, by size check plus a one-sided entry scan. -/
def endingRefsDifferent (lhs rhs : BlockMap) : Bool :=
  if lhs.length ≠ rhs.length then true
  else lhs.any (fun p =>
    match bmFind rhs p.1 with
    | none => true
    | some c => decide (¬ p.2 = c))

/-- The mutable annotation store of `RefcountTracker`: the per-instruction
`refs_consumed` and `refs_used` sequences, keyed by instruction identifier. -/
structure RCState where
  refs_consumed : List (Nat × List Value)
  refs_used : List (Nat × List Value)
deriving DecidableEq

/-- `this->refs_consumed[inst].push_back(v)`: append `v` to the sequence of
`inst`, creating the (initially empty) sequence if absent. -/
def mapPushBack (m : List (Nat × List Value)) (inst : Nat) (v : Value) :
    List (Nat × List Value) :=
  match m with
  | [] => [(inst, [v])]
  | p :: rest => if p.1 = inst then (p.1, p.2 ++ [v]) :: rest else p :: mapPushBack rest inst v

/-- `RefcountTracker::refConsumed` (refcounts.cpp lines 102-109): undef values
and constant null pointers are skipped before anything is recorded; the debug
assertion that the value has a resolved discipline is modelled as an error. -/
def refConsumed (vars : Value → VarState) (st : RCState) (v : Value) (inst : Nat) :
    Except String RCState :=
  if isUndefValue v || isConstantPointerNull v then Except.ok st
  else if (vars v).reftype = RefType.UNKNOWN then Except.error "assert reftype resolved"
  else Except.ok { st with refs_consumed := mapPushBack st.refs_consumed inst v }

/-- `RefcountTracker::refUsed` (refcounts.cpp lines 111-118): same shape as
`refConsumed`, recording into `refs_used`. -/
def refUsed (vars : Value → VarState) (st : RCState) (v : Value) (inst : Nat) :
    Except String RCState :=
  if isUndefValue v || isConstantPointerNull v then Except.ok st
  else if (vars v).reftype = RefType.UNKNOWN then Except.error "assert reftype resolved"
  else Except.ok { st with refs_used := mapPushBack st.refs_used inst v }

/-- No undef value and no constant null pointer occurs in any recorded
consumed or used sequence. -/
def noUndefOrNull (st : RCState) : Prop :=
  (∀ p ∈ st.refs_consumed, ∀ u ∈ p.2, isUndefValue u = false ∧ isConstantPointerNull u = false)
  ∧ (∀ p ∈ st.refs_used, ∀ u ∈ p.2, isUndefValue u = false ∧ isConstantPointerNull u = false)

/-- `RefOp` (refcounts.cpp lines 810-819): a planned ref-count operation.
Exactly one of `insertion_inst` (the instruction to insert before) and
`insertion_bb` (an edge `insertion_from_bb -> insertion_bb`, or a lone block
for entry increfs) is set. -/
structure RefOp where
  operand : Value
  nullable : Bool
  num_refs : Nat
  insertion_inst : Option Nat
  insertion_bb : Option Nat
  insertion_from_bb : Option Nat
deriving DecidableEq

/-- The `min_refs` accumulation of refcounts.cpp lines 933-944: fold over the
processed successors, taking the minimum of the stored counts, where a
successor missing the value resets the accumulator to zero.  The accumulator
starts at the literal `1000000000` of the source. -/
def minRefsFold (succMaps : List BlockMap) (v : Value) : Nat :=
  succMaps.foldl
    (fun acc m =>
      match bmFind m v with
      | some n => min n acc
      | none => 0)
    1000000000

/-- Lines 946-947: `if (refstate.reftype == RefType::OWNED) min_refs =
std::max(1, min_refs);`. -/
def mergedMinRefs (vars : Value → VarState) (succMaps : List BlockMap) (v : Value) : Nat :=
  let m := minRefsFold succMaps v
  if (vars v).reftype = RefType.OWNED then max 1 m else m

/-- Lines 949-958: the increfs the merge schedules for value `v`, one per
successor demanding more than the merged count, on the edge
`bbIdx -> successor`.  `succs` pairs each processed successor block index with
its `ending_refs`. -/
def mergeEdgeIncrefs (vars : Value → VarState) (succs : List (Nat × BlockMap))
    (bbIdx : Nat) (v : Value) : List RefOp :=
  let minr := mergedMinRefs vars (succs.map Prod.snd) v
  succs.filterMap (fun s =>
    let this_refs := bmGetD s.2 v
    if minr < this_refs then
      some ⟨v, (vars v).nullable, this_refs - minr, none, some s.1, some bbIdx⟩
    else none)

/-- Lines 959-963: the decrefs the merge schedules for value `v`, one per
successor demanding fewer than the merged count, on the edge
`bbIdx -> successor`. -/
def mergeEdgeDecrefs (vars : Value → VarState) (succs : List (Nat × BlockMap))
    (bbIdx : Nat) (v : Value) : List RefOp :=
  let minr := mergedMinRefs vars (succs.map Prod.snd) v
  succs.filterMap (fun s =>
    let this_refs := bmGetD s.2 v
    if this_refs < minr then
      some ⟨v, (vars v).nullable, minr - this_refs, none, some s.1, some bbIdx⟩
    else none)

/-- Lines 966-969: `if (min_refs) state.starting_refs[v] = min_refs;` -- the
`starting_refs` entry recorded for `v`, if any. -/
def startingRefsEntry (vars : Value → VarState) (succMaps : List BlockMap)
    (v : Value) : Option Nat :=
  let minr := mergedMinRefs vars succMaps v
  if minr ≠ 0 then some minr else none

/-- `needed_refs` of line 1017: the structural need of a value at a pre-call
point -- 1 if OWNED, 0 if BORROWED. -/
def needsRefsOf (vars : Value → VarState) (v : Value) : Nat :=
  if (vars v).reftype = RefType.OWNED then 1 else 0

/-- The loop body of refcounts.cpp lines 1015-1026 (pre-call flushing at a
may-raise instruction `inst`): iterate over the entries of `ending_refs` in
insertion order; for an entry holding more than its structural need push an
incref of the surplus inserted before `I.getNextNode()` (position `inst + 1`);
set every entry down to its structural need; collect the entries whose need is
zero into `to_erase`. -/
def mayThrowFlushLoop (vars : Value → VarState) (inst : Nat) (m : BlockMap) :
    List RefOp × BlockMap × List Value :=
  m.foldl
    (fun acc p =>
      let needed := needsRefsOf vars p.1
      let incs :=
        if needed < p.2 then
          acc.1 ++ [⟨p.1, (vars p.1).nullable, p.2 - needed, some (inst + 1), none, none⟩]
        else acc.1
      let cur := bmSet acc.2.1 p.1 needed
      let toE := if needed = 0 then acc.2.2 ++ [p.1] else acc.2.2
      (incs, cur, toE))
    ([], m, [])

/-- Lines 1014-1030 complete: run the flushing loop, then erase the collected
zero-need entries from the updated map. -/
def mayThrowFlush (vars : Value → VarState) (inst : Nat) (m : BlockMap) :
    List RefOp × BlockMap :=
  let r := mayThrowFlushLoop vars inst m
  (r.1, r.2.2.foldl bmErase r.2.1)

/-- A `CXXFixup` record (refcounts.cpp lines 833-836): a may-raise instruction
together with the values to decref on its unwind path. -/
structure CXXFixup where
  inst : Nat
  to_decref : List Value
deriving DecidableEq

/-- The capture loop of lines 1106-1111: walk `ending_refs` in insertion order
and push each value once per unit of its count. -/
def captureToDecref (m : BlockMap) : List Value :=
  m.foldl (fun acc p => (List.range p.2).foldl (fun a _ => a ++ [p.1]) acc) []

/-- Lines 1100-1115: at a may-raise instruction `instId`, emplace a fresh fixup
record filled from `ending_refs`, and pop it again if its `to_decref` came out
empty. -/
def mayThrowFixups (instId : Nat) (m : BlockMap) (fixups : List CXXFixup) :
    List CXXFixup :=
  let fs := fixups ++ [⟨instId, captureToDecref m⟩]
  if (captureToDecref m).isEmpty then fs.dropLast else fs

/-- Modelled from the spec: the decrement patch-point identifier and reserved
size constants live in `codegen/patchpoints.h`, outside the given source; the
spec only requires them to be distinct for ordinary vs. nullable variants, and
nothing below depends on the numbers. -/
def DECREF_PP_ID : Nat := 0

/-- Modelled from the spec: see `DECREF_PP_ID`. -/
def XDECREF_PP_ID : Nat := 1

/-- Modelled from the spec: see `DECREF_PP_ID`. -/
def DECREF_PP_SIZE : Nat := 0

/-- Modelled from the spec: see `DECREF_PP_ID`. -/
def XDECREF_PP_SIZE : Nat := 1

/-- The IR fragments `addDecrefs` emits. -/
inductive Emitted
| nullCheckBranch (v : Value)
| patchpointCall (ppId ppSize : Nat) (v : Value)
deriving DecidableEq

/-- The ways `addDecrefs` can abort instead of completing. -/
inductive DecrefAbort
| sigtrap
| assertNullable
| assertPositive
| releaseAssertOneRef
deriving DecidableEq

/-- `addDecrefs` (refcounts.cpp lines 264-307).  `num_refs > 1` reaches
`printf("Whoa more than one decref??\n"); raise(SIGTRAP);`, which kills the
process under the default SIGTRAP disposition, modelled as `sigtrap`.  A
constant null pointer returns with nothing emitted (after `assert(nullable)`).
A nullable decref emits a null-check diamond and recurses with
`nullable = false`; the non-nullable path release-asserts `num_refs == 1` and
emits a single patchpoint call. -/
def addDecrefs (v : Value) (nullable : Bool) (num_refs : Nat) :
    Except DecrefAbort (List Emitted) :=
  if 1 < num_refs then Except.error DecrefAbort.sigtrap
  else if isConstantPointerNull v then
    if nullable then Except.ok [] else Except.error DecrefAbort.assertNullable
  else if num_refs = 0 then Except.error DecrefAbort.assertPositive
  else if nullable then
    match addDecrefs v false num_refs with
    | Except.ok ops => Except.ok (Emitted.nullCheckBranch v :: ops)
    | Except.error e => Except.error e
  else if ¬ num_refs = 1 then Except.error DecrefAbort.releaseAssertOneRef
  else
    Except.ok
      [Emitted.patchpointCall (if nullable then XDECREF_PP_ID else DECREF_PP_ID)
        (if nullable then XDECREF_PP_SIZE else DECREF_PP_SIZE) v]
termination_by (if nullable then 1 else 0)
decreasing_by simp_all

/-- The pop of `BlockOrderer` (refcounts.cpp lines 649-691): the
`std::priority_queue` with `BlockComparer` yields the queued block with the
smallest priority; `popBest` scans the queued indices `x :: xs` for it. -/
def popBest (prio : Nat → Nat) (x : Nat) (xs : List Nat) : Nat :=
  xs.foldl (fun best i => if prio i < prio best then i else best) x

/-- Repeatedly pop the minimum-priority block until the queue drains, with
explicit fuel (one unit per pop; the queue shrinks by one each pop). -/
def drainFuel (prio : Nat → Nat) : Nat → List Nat → List Nat
  | 0, _ => []
  | _ + 1, [] => []
  | fuel + 1, x :: xs =>
    let m := popBest prio x xs
    m :: drainFuel prio fuel ((x :: xs).erase m)

/-- The full pop sequence of a `BlockOrderer` whose queue holds `q`. -/
def drainOrderer (prio : Nat → Nat) (q : List Nat) : List Nat :=
  drainFuel prio q.length q

/-- The entry-block loop of refcounts.cpp lines 1167-1191: every value left in
`ending_refs` must be a global variable, a constant or a function argument
(`assert(found)`), must be BORROWED, and gets an incref of its full count
scheduled on the entry block (`RefOp{p.first, nullable, p.second, NULL, bb,
NULL}`); the asserts are modelled as errors. -/
def entryLoop (vars : Value → VarState) (bbIdx : Nat) :
    List (Value × Nat) → List RefOp → Except String (List RefOp)
  | [], acc => Except.ok acc
  | p :: rest, acc =>
    if p.2 = 0 then Except.error "assert nonzero count"
    else if isGlobalVariable p.1 = false ∧ isLLVMConstant p.1 = false
        ∧ isFuncArg p.1 = false then
      Except.error "value left in entry block is not an argument global or constant"
    else if ¬ (vars p.1).reftype = RefType.BORROWED then
      Except.error "assert borrowed"
    else
      entryLoop vars bbIdx rest
        (acc ++ [⟨p.1, (vars p.1).nullable, p.2, none, some bbIdx, none⟩])

/-- Lines 1166-1192 complete: run the entry loop over `ending_refs`, then
`state.ending_refs.clear()`. -/
def entryBlockHandling (vars : Value → VarState) (bbIdx : Nat) (m : BlockMap)
    (increfs : List RefOp) : Except String (List RefOp × BlockMap) :=
  match entryLoop vars bbIdx m increfs with
  | Except.ok ops => Except.ok (ops, ([] : BlockMap))
  | Except.error e => Except.error e

/-- The kinds of instructions `findInsertionPoint` distinguishes. -/
inductive InstKind
| phi
| alloca
| landingpad
| otherInst
deriving DecidableEq

/-- A basic block as `findInsertionPoint` sees it: its identity, its
instruction list, and its predecessor count. -/
structure BBlock where
  idx : Nat
  insts : List InstKind
  numPreds : Nat
deriving DecidableEq

/-- A concrete insertion position: a block identity and an instruction
position within it.  A freshly created breaker block is identified by a fresh
block id with position 0 (its `getFirstInsertionPt`). -/
structure InsPoint where
  blockIdx : Nat
  pos : Nat
deriving DecidableEq

/-- The `InsertionCache` (line 140) plus the CFG mutations `findInsertionPoint`
may perform: the edges split so far and a supply of fresh block ids for
breaker blocks. -/
structure FIPState where
  cache : List ((Nat × Option Nat) × InsPoint)
  splits : List (Nat × Nat)
  nextFresh : Nat
deriving DecidableEq

/-- `cache.find(key)`. -/
def cacheFind (c : List ((Nat × Option Nat) × InsPoint)) (k : Nat × Option Nat) :
    Option InsPoint :=
  match c with
  | [] => none
  | p :: rest => if p.1 = k then some p.2 else cacheFind rest k

/-- The scan of lines 191-196: the position of the first instruction that is
neither a phi nor an alloca. -/
def firstNonPhiAlloca : List InstKind → Option Nat
  | [] => none
  | k :: rest =>
    if k = InstKind.phi ∨ k = InstKind.alloca then (firstNonPhiAlloca rest).map (· + 1)
    else some 0

/-- `findInsertionPoint` (refcounts.cpp lines 141-199).  Cache hits return
immediately.  On a miss: a destination with more than one predecessor gets the
edge split (a fresh breaker block, recorded in `splits`; the terminator
retarget and phi remap mutate blocks not otherwise inspected here); a
destination beginning with a landing pad yields its fourth instruction
(`begin` advanced three times past the landingpad-extract-cxa_begin_catch
triple); otherwise the first non-phi non-alloca instruction (`abort()` if
none).  The result is cached under `(BB, from_bb)`. -/
def findInsertionPoint (BB : BBlock) (from_bb : Option Nat) (st : FIPState) :
    Except String (InsPoint × FIPState) :=
  let key := (BB.idx, from_bb)
  match cacheFind st.cache key with
  | some pt => Except.ok (pt, st)
  | none =>
    if 1 < BB.numPreds then
      match from_bb with
      | none => Except.error "dont know how to break the critical edge"
      | some fi =>
        let pt : InsPoint := ⟨st.nextFresh, 0⟩
        Except.ok (pt, ⟨st.cache ++ [(key, pt)], st.splits ++ [(fi, BB.idx)], st.nextFresh + 1⟩)
    else
      match BB.insts with
      | InstKind.landingpad :: _ =>
        if 3 < BB.insts.length then
          let pt : InsPoint := ⟨BB.idx, 3⟩
          Except.ok (pt, ⟨st.cache ++ [(key, pt)], st.splits, st.nextFresh⟩)
        else Except.error "landing pad block too short"
      | _ =>
        match firstNonPhiAlloca BB.insts with
        | some i =>
          let pt : InsPoint := ⟨BB.idx, i⟩
          Except.ok (pt, ⟨st.cache ++ [(key, pt)], st.splits, st.nextFresh⟩)
        | none => Except.error "abort"

/-- A sample instruction-result value. -/
def vInst0 : Value := ⟨0, VKind.instResult⟩

/-- A second sample instruction-result value. -/
def vInst1 : Value := ⟨1, VKind.instResult⟩

/-- A sample function-argument value. -/
def vArg0 : Value := ⟨2, VKind.argument⟩

/-- A sample undef value. -/
def vUndef0 : Value := ⟨3, VKind.undefV⟩

/-- A sample annotation store marking every value BORROWED and non-null. -/
def varsAllBorrowed : Value → VarState := fun _ => ⟨RefType.BORROWED, false⟩

/-- A sample annotation store marking every value OWNED and non-null. -/
def varsAllOwned : Value → VarState := fun _ => ⟨RefType.OWNED, false⟩

/-- The loop body of the `min_refs` accumulation, named for reuse in proofs. -/
def minRefsStep (v : Value) (acc : Nat) (m : BlockMap) : Nat :=
  match bmFind m v with
  | some n => min n acc
  | none => 0

/-- Declarative form of the increfs pushed by the may-raise flush: one per
entry exceeding its structural need, of exactly the surplus, inserted before
instruction `inst + 1`, i.e. immediately after `inst`. -/
def flushIncrefs (vars : Value → VarState) (inst : Nat) (m : BlockMap) : List RefOp :=
  m.filterMap (fun p =>
    if needsRefsOf vars p.1 < p.2 then
      some ⟨p.1, (vars p.1).nullable, p.2 - needsRefsOf vars p.1, some (inst + 1), none, none⟩
    else none)

/-- Declarative form of the `to_erase` list collected by the may-raise flush:
the keys whose structural need is zero, in insertion order. -/
def flushToErase (vars : Value → VarState) (m : BlockMap) : List Value :=
  m.filterMap (fun p => if needsRefsOf vars p.1 = 0 then some p.1 else none)

/-- The in-place updates of the may-raise flush: set each entry of `l` down to
its structural need within `cur`. -/
def bmSetFold (vars : Value → VarState) (l : List (Value × Nat)) (cur : BlockMap) : BlockMap :=
  l.foldl (fun c p => bmSet c p.1 (needsRefsOf vars p.1)) cur

/-! ## Theorems -/

theorem mem_mapPushBack {m : List (Nat × List Value)} {inst : Nat} {v : Value}
    {p : Nat × List Value} {u : Value} (hp : p ∈ mapPushBack m inst v) (hu : u ∈ p.2) :
    u = v ∨ ∃ q ∈ m, u ∈ q.2 := by
  induction m with
  | nil =>
    simp only [mapPushBack, List.mem_singleton] at hp
    subst hp
    simp only [List.mem_singleton] at hu
    exact Or.inl hu
  | cons q rest ih =>
    simp only [mapPushBack] at hp
    by_cases hq : q.1 = inst
    · rw [if_pos hq] at hp
      rcases List.mem_cons.mp hp with h1 | h1
      · subst h1
        rcases List.mem_append.mp hu with h2 | h2
        · exact Or.inr ⟨q, List.mem_cons_self _ _, h2⟩
        · simp only [List.mem_singleton] at h2
          exact Or.inl h2
      · exact Or.inr ⟨p, List.mem_cons_of_mem _ h1, hu⟩
    · rw [if_neg hq] at hp
      rcases List.mem_cons.mp hp with h1 | h1
      · subst h1
        exact Or.inr ⟨p, List.mem_cons_self _ _, hu⟩
      · rcases ih h1 with h2 | ⟨r, hr, hur⟩
        · exact Or.inl h2
        · exact Or.inr ⟨r, List.mem_cons_of_mem _ hr, hur⟩

/-- **C10**: for every value `v` that is an LLVM undef value or a constant null
pointer, `refConsumed(v, inst)` and `refUsed(v, inst)` are no-ops, returning
with the store unchanged; consequently, no undef or constant-null value ever
appears in any recorded consumed or used sequence. -/
theorem c10_undef_null_noop (vars : Value → VarState) (st : RCState) (v : Value)
    (inst : Nat) :
    ((isUndefValue v || isConstantPointerNull v) = true →
      refConsumed vars st v inst = Except.ok st ∧ refUsed vars st v inst = Except.ok st)
    ∧ (noUndefOrNull st →
      (∀ st2, refConsumed vars st v inst = Except.ok st2 → noUndefOrNull st2)
      ∧ (∀ st2, refUsed vars st v inst = Except.ok st2 → noUndefOrNull st2)) := by
  constructor
  · intro h
    constructor <;> simp [refConsumed, refUsed, h]
  · intro hno
    by_cases hb : (isUndefValue v || isConstantPointerNull v) = true
    · constructor <;>
        · intro st2 h2
          simp only [refConsumed, refUsed, hb, if_true, Except.ok.injEq] at h2
          subst h2
          exact hno
    · have hbf : (isUndefValue v || isConstantPointerNull v) = false :=
        Bool.not_eq_true _ ▸ Bool.of_not_eq_true hb
      have hbv : isUndefValue v = false ∧ isConstantPointerNull v = false := by
        simpa [Bool.or_eq_false_iff] using hbf
      by_cases hu : (vars v).reftype = RefType.UNKNOWN
      · constructor <;>
          · intro st2 h2
            simp [refConsumed, refUsed, hbf, hu] at h2
      · constructor
        · intro st2 h2
          simp only [refConsumed, hbf, Bool.false_eq_true, if_false, hu, if_neg,
            Except.ok.injEq] at h2
          subst h2
          refine ⟨?_, hno.2⟩
          intro p hp u hup
          rcases mem_mapPushBack hp hup with h3 | ⟨q, hq, huq⟩
          · subst h3
            exact hbv
          · exact hno.1 q hq u huq
        · intro st2 h2
          simp only [refUsed, hbf, Bool.false_eq_true, if_false, hu, if_neg,
            Except.ok.injEq] at h2
          subst h2
          refine ⟨hno.1, ?_⟩
          intro p hp u hup
          rcases mem_mapPushBack hp hup with h3 | ⟨q, hq, huq⟩
          · subst h3
            exact hbv
          · exact hno.2 q hq u huq

/-- C10 witness: at the concrete undef value, `refConsumed` leaves an empty
store unchanged. -/
theorem c10_witness :
    refConsumed varsAllBorrowed ⟨[], []⟩ vUndef0 0 = Except.ok ⟨[], []⟩ :=
  ((c10_undef_null_noop varsAllBorrowed ⟨[], []⟩ vUndef0 0).1 (by decide)).1

/-- **C5 counterexample**: a planned decrement with count 2 at a single site
does not complete: `addDecrefs` raises SIGTRAP (fatal under the default
disposition), so counts greater than 1 are not merely warned about. -/
theorem c5_counterexample :
    addDecrefs vInst0 false 2 = Except.error DecrefAbort.sigtrap
    ∧ (addDecrefs vInst0 false 2).isOk = false := by
  constructor <;> simp [addDecrefs, vInst0, isConstantPointerNull, Except.isOk, Except.toBool]

/-- **C5 (amended)**: a planned decrement with count greater than 1 is
rejected: `addDecrefs` hits `raise(SIGTRAP)` before emitting anything; only
count exactly 1 (or a constant-null operand, which emits nothing) completes. -/
theorem c5_decref_count_gt_one_traps (v : Value) (nullable : Bool) (n : Nat)
    (h : 2 ≤ n) :
    addDecrefs v nullable n = Except.error DecrefAbort.sigtrap := by
  rw [addDecrefs]
  simp [show 1 < n from h]

/-- C5 witness: the amended theorem applied at count 3 on a nullable value. -/
theorem c5_witness : addDecrefs vInst0 true 3 = Except.error DecrefAbort.sigtrap :=
  c5_decref_count_gt_one_traps vInst0 true 3 (by decide)

theorem foldl_push_const (x : Value) :
    ∀ (l : List Nat) (acc : List Value),
      l.foldl (fun a _ => a ++ [x]) acc = acc ++ List.replicate l.length x := by
  intro l
  induction l with
  | nil =>
    intro acc
    simp only [List.foldl_nil, List.length_nil, List.replicate_zero, List.append_nil]
  | cons n rest ih =>
    intro acc
    rw [List.foldl_cons, ih]
    simp [List.replicate_succ]

theorem captureToDecref_eq_flatMap (m : BlockMap) :
    captureToDecref m = m.flatMap (fun p => List.replicate p.2 p.1) := by
  suffices h : ∀ acc : List Value,
      m.foldl (fun acc p => (List.range p.2).foldl (fun a _ => a ++ [p.1]) acc) acc
        = acc ++ m.flatMap (fun p => List.replicate p.2 p.1) by
    simpa [captureToDecref] using h []
  induction m with
  | nil => intro acc; simp
  | cons p rest ih =>
    intro acc
    rw [List.foldl_cons, ih, foldl_push_const, List.length_range, List.flatMap_cons,
      List.append_assoc]

/-- **C3**: for a may-raise instruction, the captured fixup list contains
exactly the values of the current `ending_refs`, each repeated as many times
as its count, in the map's insertion order; if that multiset is empty, no
fixup record is attached. -/
theorem c3_fixup_capture (instId : Nat) (m : BlockMap) (fixups : List CXXFixup) :
    captureToDecref m = m.flatMap (fun p => List.replicate p.2 p.1)
    ∧ mayThrowFixups instId m fixups
      = (if m.flatMap (fun p => List.replicate p.2 p.1) = [] then fixups
         else fixups ++ [⟨instId, m.flatMap (fun p => List.replicate p.2 p.1)⟩]) := by
  have hc := captureToDecref_eq_flatMap m
  refine ⟨hc, ?_⟩
  unfold mayThrowFixups
  rw [hc]
  by_cases h : m.flatMap (fun p => List.replicate p.2 p.1) = []
  · simp [h]
  · simp [h]

theorem bmFind_mem {m : BlockMap} {v : Value} {c : Nat} (h : bmFind m v = some c) :
    (v, c) ∈ m := by
  induction m with
  | nil => simp [bmFind] at h
  | cons p rest ih =>
    simp only [bmFind] at h
    by_cases hp : p.1 = v
    · rw [if_pos hp] at h
      have hc : p.2 = c := by injection h
      have hpc : p = (v, c) := by
        cases p
        simp only [Prod.mk.injEq]
        exact ⟨hp, hc⟩
      rw [← hpc]
      exact List.mem_cons_self _ _
    · rw [if_neg hp] at h
      exact List.mem_cons_of_mem _ (ih h)

theorem bmFind_eq_none_iff {m : BlockMap} {v : Value} :
    bmFind m v = none ↔ v ∉ bmKeys m := by
  induction m with
  | nil => simp [bmFind, bmKeys]
  | cons p rest ih =>
    simp only [bmFind, bmKeys, List.map_cons, List.mem_cons]
    by_cases hp : p.1 = v
    · simp [hp]
    · simp only [if_neg hp, ih, bmKeys]
      constructor
      · intro h2
        intro hcon
        rcases hcon with h3 | h3
        · exact hp h3.symm
        · exact h2 h3
      · intro h2 h3
        exact h2 (Or.inr h3)

theorem mem_bmFind {m : BlockMap} {v : Value} {c : Nat}
    (hnd : (bmKeys m).Nodup) (h : (v, c) ∈ m) : bmFind m v = some c := by
  induction m with
  | nil => simp at h
  | cons p rest ih =>
    simp only [bmKeys, List.map_cons, List.nodup_cons] at hnd
    rcases List.mem_cons.mp h with h1 | h1
    · subst h1
      simp [bmFind]
    · have hp : ¬ p.1 = v := by
        intro he
        exact hnd.1 (he ▸ List.mem_map_of_mem Prod.fst h1)
      simp only [bmFind, if_neg hp]
      exact ih hnd.2 h1

theorem mem_bmKeys_iff {m : BlockMap} {v : Value} :
    v ∈ bmKeys m ↔ ∃ c, bmFind m v = some c := by
  constructor
  · intro h
    induction m with
    | nil => simp [bmKeys] at h
    | cons q rest ih =>
      simp only [bmFind]
      by_cases hq : q.1 = v
      · rw [if_pos hq]
        exact ⟨q.2, rfl⟩
      · rw [if_neg hq]
        apply ih
        simp only [bmKeys, List.map_cons, List.mem_cons] at h
        rcases h with h1 | h1
        · exact absurd h1.symm hq
        · exact h1
  · intro ⟨c, hc⟩
    exact List.mem_map_of_mem Prod.fst (bmFind_mem hc)

theorem endingRefsDifferent_false_iff (lhs rhs : BlockMap) :
    endingRefsDifferent lhs rhs = false
      ↔ lhs.length = rhs.length ∧ ∀ p ∈ lhs, bmFind rhs p.1 = some p.2 := by
  unfold endingRefsDifferent
  by_cases hlen : lhs.length = rhs.length
  · rw [if_neg (by simpa using hlen)]
    rw [List.any_eq_false]
    constructor
    · intro h
      refine ⟨hlen, ?_⟩
      intro p hp
      have h2 := h p hp
      cases hf : bmFind rhs p.1 with
      | none => rw [hf] at h2; simp at h2
      | some c =>
        rw [hf] at h2
        have h3 : p.2 = c := by simpa using h2
        rw [h3]
    · intro ⟨_, h⟩ p hp
      rw [h p hp]
      simp
  · rw [if_pos (by simpa using hlen)]
    simp only [Bool.true_eq_false, false_iff]
    intro ⟨h, _⟩
    exact hlen h

theorem bmKeys_length (m : BlockMap) : (bmKeys m).length = m.length := by
  simp [bmKeys]

theorem endingRefsDifferent_false_iff_pointwise (lhs rhs : BlockMap)
    (hl : (bmKeys lhs).Nodup) (hr : (bmKeys rhs).Nodup) :
    endingRefsDifferent lhs rhs = false ↔ ∀ v, bmFind lhs v = bmFind rhs v := by
  rw [endingRefsDifferent_false_iff]
  constructor
  · intro ⟨hlen, h⟩ v
    cases hf : bmFind lhs v with
    | some c => rw [(h _ (bmFind_mem hf) : bmFind rhs v = some c)]
    | none =>
      have hv : v ∉ bmKeys lhs := bmFind_eq_none_iff.mp hf
      cases hg : bmFind rhs v with
      | none => rfl
      | some c =>
        exfalso
        have hsub : bmKeys lhs ⊆ bmKeys rhs := by
          intro k hk
          rcases mem_bmKeys_iff.mp hk with ⟨ck, hck⟩
          exact mem_bmKeys_iff.mpr ⟨ck, h _ (bmFind_mem hck)⟩
        have hcard : (bmKeys rhs).toFinset ⊆ (bmKeys lhs).toFinset := by
          apply Finset.subset_of_eq
          symm
          apply Finset.eq_of_subset_of_card_le
          · intro a ha
            exact List.mem_toFinset.mpr (hsub (List.mem_toFinset.mp ha))
          · rw [List.toFinset_card_of_nodup hl, List.toFinset_card_of_nodup hr,
              bmKeys_length, bmKeys_length, hlen]
        have : v ∈ bmKeys lhs := by
          have hvr : v ∈ bmKeys rhs := mem_bmKeys_iff.mpr ⟨c, hg⟩
          exact List.mem_toFinset.mp (hcard (List.mem_toFinset.mpr hvr))
        exact hv this
  · intro h
    constructor
    · have hset : ∀ v, v ∈ bmKeys lhs ↔ v ∈ bmKeys rhs := by
        intro v
        rw [mem_bmKeys_iff, mem_bmKeys_iff, h v]
      have : (bmKeys lhs).toFinset = (bmKeys rhs).toFinset := by
        apply Finset.ext
        intro a
        rw [List.mem_toFinset, List.mem_toFinset]
        exact hset a
      have hcl := List.toFinset_card_of_nodup hl
      have hcr := List.toFinset_card_of_nodup hr
      rw [← bmKeys_length, ← bmKeys_length, ← hcl, ← hcr, this]
    · intro p hp
      rw [← h p.1]
      exact mem_bmFind hl hp

/-- **C9**: `endingRefsDifferent` is an order-insensitive equality test on
per-block ref maps: it returns `false` iff the two maps contain exactly the
same values with equal counts (regardless of entry order), and it is symmetric
in its two arguments. -/
theorem c9_endingRefsDifferent_eq (lhs rhs : BlockMap)
    (hl : (bmKeys lhs).Nodup) (hr : (bmKeys rhs).Nodup) :
    (endingRefsDifferent lhs rhs = false ↔ ∀ v, bmFind lhs v = bmFind rhs v)
    ∧ endingRefsDifferent lhs rhs = endingRefsDifferent rhs lhs := by
  refine ⟨endingRefsDifferent_false_iff_pointwise lhs rhs hl hr, ?_⟩
  have h1 := endingRefsDifferent_false_iff_pointwise lhs rhs hl hr
  have h2 := endingRefsDifferent_false_iff_pointwise rhs lhs hr hl
  cases hx : endingRefsDifferent lhs rhs <;> cases hy : endingRefsDifferent rhs lhs
  · rfl
  · exfalso
    have := h2.mpr (fun v => (h1.mp hx v).symm)
    rw [hy] at this
    exact Bool.true_eq_false.mp this
  · exfalso
    have := h1.mpr (fun v => (h2.mp hy v).symm)
    rw [hx] at this
    exact Bool.true_eq_false.mp this
  · rfl

/-- C9 witness: two maps holding the same entries in opposite insertion order
compare as not different, in both argument orders. -/
theorem c9_witness :
    bmFind [(vInst0, 2), (vInst1, 1)] vInst1 = bmFind [(vInst1, 1), (vInst0, 2)] vInst1
    ∧ endingRefsDifferent [(vInst0, 2), (vInst1, 1)] [(vInst1, 1), (vInst0, 2)]
      = endingRefsDifferent [(vInst1, 1), (vInst0, 2)] [(vInst0, 2), (vInst1, 1)] :=
  ⟨(c9_endingRefsDifferent_eq [(vInst0, 2), (vInst1, 1)] [(vInst1, 1), (vInst0, 2)]
      (by decide) (by decide)).1.mp (by decide) vInst1,
   (c9_endingRefsDifferent_eq [(vInst0, 2), (vInst1, 1)] [(vInst1, 1), (vInst0, 2)]
      (by decide) (by decide)).2⟩

theorem minRefsFold_eq (succMaps : List BlockMap) (v : Value) :
    minRefsFold succMaps v = succMaps.foldl (minRefsStep v) 1000000000 := rfl

theorem minRefsStep_eq_min (v : Value) (acc : Nat) (m : BlockMap) :
    minRefsStep v acc m = min (bmGetD m v) acc := by
  unfold minRefsStep bmGetD
  cases h : bmFind m v with
  | none => simp
  | some n => simp

theorem foldl_minRefsStep_le_acc (v : Value) :
    ∀ (l : List BlockMap) (acc : Nat), l.foldl (minRefsStep v) acc ≤ acc := by
  intro l
  induction l with
  | nil => intro acc; exact Nat.le_refl acc
  | cons m rest ih =>
    intro acc
    calc (m :: rest).foldl (minRefsStep v) acc = rest.foldl (minRefsStep v) (minRefsStep v acc m) := rfl
    _ ≤ minRefsStep v acc m := ih _
    _ ≤ acc := by rw [minRefsStep_eq_min]; exact Nat.min_le_right _ _

theorem foldl_minRefsStep_le_mem (v : Value) :
    ∀ (l : List BlockMap) (acc : Nat) (m : BlockMap), m ∈ l →
      l.foldl (minRefsStep v) acc ≤ bmGetD m v := by
  intro l
  induction l with
  | nil => intro acc m hm; simp at hm
  | cons m1 rest ih =>
    intro acc m hm
    rcases List.mem_cons.mp hm with h1 | h1
    · subst h1
      calc (m :: rest).foldl (minRefsStep v) acc
          = rest.foldl (minRefsStep v) (minRefsStep v acc m) := rfl
      _ ≤ minRefsStep v acc m := foldl_minRefsStep_le_acc v rest _
      _ ≤ bmGetD m v := by rw [minRefsStep_eq_min]; exact Nat.min_le_left _ _
    · exact ih _ m h1

theorem minRefsFold_le (succMaps : List BlockMap) (v : Value) :
    ∀ m ∈ succMaps, minRefsFold succMaps v ≤ bmGetD m v := by
  intro m hm
  rw [minRefsFold_eq]
  exact foldl_minRefsStep_le_mem v succMaps _ m hm

theorem foldl_minRefsStep_cases (v : Value) :
    ∀ (l : List BlockMap) (acc : Nat),
      l.foldl (minRefsStep v) acc = acc
      ∨ ∃ m ∈ l, l.foldl (minRefsStep v) acc = bmGetD m v := by
  intro l
  induction l with
  | nil => intro acc; exact Or.inl rfl
  | cons m1 rest ih =>
    intro acc
    have hstep : (m1 :: rest).foldl (minRefsStep v) acc
        = rest.foldl (minRefsStep v) (minRefsStep v acc m1) := rfl
    rcases ih (minRefsStep v acc m1) with h | ⟨m, hm, he⟩
    · rw [hstep, h, minRefsStep_eq_min]
      rcases Nat.le_total (bmGetD m1 v) acc with hle | hle
      · exact Or.inr ⟨m1, List.mem_cons_self _ _, Nat.min_eq_left hle⟩
      · exact Or.inl (Nat.min_eq_right hle)
    · exact Or.inr ⟨m, List.mem_cons_of_mem _ hm, hstep ▸ he⟩

/-- **C1 (amended)**: for a block with processed successors (whose demands are
below the `1000000000` sentinel), the merged count is the *minimum* -- not the
maximum -- over those successors of their `ending_refs` count for `v`, a
successor missing `v` contributing zero; it is then raised to at least 1 for
an OWNED value, and the `starting_refs` entry is recorded exactly when the
result is positive. -/
theorem c1_starting_refs_min (vars : Value → VarState) (succMaps : List BlockMap)
    (v : Value) (h1 : succMaps ≠ [])
    (h2 : ∀ m ∈ succMaps, bmGetD m v < 1000000000) :
    (∀ m ∈ succMaps, minRefsFold succMaps v ≤ bmGetD m v)
    ∧ (∃ m ∈ succMaps, bmGetD m v = minRefsFold succMaps v)
    ∧ mergedMinRefs vars succMaps v
        = (if (vars v).reftype = RefType.OWNED then max 1 (minRefsFold succMaps v)
           else minRefsFold succMaps v)
    ∧ startingRefsEntry vars succMaps v
        = (if 0 < mergedMinRefs vars succMaps v then some (mergedMinRefs vars succMaps v)
           else none) := by
  refine ⟨minRefsFold_le succMaps v, ?_, rfl, ?_⟩
  · rcases foldl_minRefsStep_cases v succMaps 1000000000 with h | ⟨m, hm, he⟩
    · exfalso
      rcases List.exists_mem_of_ne_nil succMaps h1 with ⟨m0, hm0⟩
      have hle := minRefsFold_le succMaps v m0 hm0
      rw [minRefsFold_eq, h] at hle
      exact Nat.not_lt.mpr hle (h2 m0 hm0)
    · exact ⟨m, hm, by rw [minRefsFold_eq, he]⟩
  · unfold startingRefsEntry
    rcases Nat.eq_zero_or_pos (mergedMinRefs vars succMaps v) with hz | hp
    · rw [hz]
      simp
    · rw [if_pos (Nat.pos_iff_ne_zero.mp hp), if_pos hp]

/-- **C1 counterexample**: with two processed successors demanding 2 and 1
references on a BORROWED value, the recorded incoming count is 1 (the min),
not 2 (the max the claim states). -/
theorem c1_counterexample :
    startingRefsEntry varsAllBorrowed [[(vInst0, 2)], [(vInst0, 1)]] vInst0 = some 1
    ∧ max (bmGetD [(vInst0, 2)] vInst0) (bmGetD [(vInst0, 1)] vInst0) = 2
    ∧ ¬ startingRefsEntry varsAllBorrowed [[(vInst0, 2)], [(vInst0, 1)]] vInst0
        = some (max (bmGetD [(vInst0, 2)] vInst0) (bmGetD [(vInst0, 1)] vInst0)) := by
  decide

/-- C1 witness: the amended theorem applied to the two concrete successors of
the counterexample. -/
theorem c1_witness :
    (∀ m ∈ ([[(vInst0, 2)], [(vInst0, 1)]] : List BlockMap),
      minRefsFold [[(vInst0, 2)], [(vInst0, 1)]] vInst0 ≤ bmGetD m vInst0)
    ∧ (∃ m ∈ ([[(vInst0, 2)], [(vInst0, 1)]] : List BlockMap),
      bmGetD m vInst0 = minRefsFold [[(vInst0, 2)], [(vInst0, 1)]] vInst0)
    ∧ mergedMinRefs varsAllBorrowed [[(vInst0, 2)], [(vInst0, 1)]] vInst0
        = (if (varsAllBorrowed vInst0).reftype = RefType.OWNED
           then max 1 (minRefsFold [[(vInst0, 2)], [(vInst0, 1)]] vInst0)
           else minRefsFold [[(vInst0, 2)], [(vInst0, 1)]] vInst0)
    ∧ startingRefsEntry varsAllBorrowed [[(vInst0, 2)], [(vInst0, 1)]] vInst0
        = (if 0 < mergedMinRefs varsAllBorrowed [[(vInst0, 2)], [(vInst0, 1)]] vInst0
           then some (mergedMinRefs varsAllBorrowed [[(vInst0, 2)], [(vInst0, 1)]] vInst0)
           else none) :=
  c1_starting_refs_min varsAllBorrowed [[(vInst0, 2)], [(vInst0, 1)]] vInst0
    (by decide) (by decide)

/-- **C2**: in the successor merge, an OWNED value's merged count is raised to
at least 1; each successor demanding more than the merged count gets an
increment of the difference scheduled on the edge `B -> s`, each successor
demanding fewer gets a decrement of the difference on that edge, and the
decrement case arises only for OWNED values. -/
theorem c2_merge_schedules (vars : Value → VarState) (succs : List (Nat × BlockMap))
    (bbIdx : Nat) (v : Value) :
    ((vars v).reftype = RefType.OWNED → 1 ≤ mergedMinRefs vars (succs.map Prod.snd) v)
    ∧ (∀ s ∈ succs, mergedMinRefs vars (succs.map Prod.snd) v < bmGetD s.2 v →
        (⟨v, (vars v).nullable, bmGetD s.2 v - mergedMinRefs vars (succs.map Prod.snd) v,
          none, some s.1, some bbIdx⟩ : RefOp) ∈ mergeEdgeIncrefs vars succs bbIdx v)
    ∧ (∀ s ∈ succs, bmGetD s.2 v < mergedMinRefs vars (succs.map Prod.snd) v →
        (⟨v, (vars v).nullable, mergedMinRefs vars (succs.map Prod.snd) v - bmGetD s.2 v,
          none, some s.1, some bbIdx⟩ : RefOp) ∈ mergeEdgeDecrefs vars succs bbIdx v)
    ∧ (∀ op ∈ mergeEdgeDecrefs vars succs bbIdx v, (vars v).reftype = RefType.OWNED) := by
  refine ⟨?_, ?_, ?_, ?_⟩
  · intro h
    unfold mergedMinRefs
    rw [if_pos h]
    exact Nat.le_max_left _ _
  · intro s hs h
    unfold mergeEdgeIncrefs
    rw [List.mem_filterMap]
    exact ⟨s, hs, by simp only [if_pos h]⟩
  · intro s hs h
    unfold mergeEdgeDecrefs
    rw [List.mem_filterMap]
    exact ⟨s, hs, by simp only [if_pos h]⟩
  · intro op hop
    unfold mergeEdgeDecrefs at hop
    rw [List.mem_filterMap] at hop
    rcases hop with ⟨s, hs, hf⟩
    by_contra hno
    have hmr : mergedMinRefs vars (succs.map Prod.snd) v = minRefsFold (succs.map Prod.snd) v := by
      unfold mergedMinRefs
      rw [if_neg hno]
    by_cases hc : bmGetD s.2 v < mergedMinRefs vars (succs.map Prod.snd) v
    · have hle := minRefsFold_le (succs.map Prod.snd) v s.2 (List.mem_map_of_mem Prod.snd hs)
      rw [← hmr] at hle
      exact Nat.not_lt.mpr hle hc
    · rw [if_neg hc] at hf
      exact Option.noConfusion hf

/-- C2 witness: the theorem applied to one OWNED value with a successor
demanding two references and a successor not mentioning the value. -/
theorem c2_witness :
    (⟨vInst0, (varsAllOwned vInst0).nullable,
       bmGetD [(vInst0, 2)] vInst0
         - mergedMinRefs varsAllOwned ([(1, [(vInst0, 2)]), (2, [])].map Prod.snd) vInst0,
       none, some 1, some 0⟩ : RefOp)
      ∈ mergeEdgeIncrefs varsAllOwned [(1, [(vInst0, 2)]), (2, [])] 0 vInst0 :=
  (c2_merge_schedules varsAllOwned [(1, [(vInst0, 2)]), (2, [])] 0 vInst0).2.1
    (1, [(vInst0, 2)]) (by decide) (by decide)

theorem mayThrowFlushLoop_split (vars : Value → VarState) (inst : Nat) :
    ∀ (l : List (Value × Nat)) (a : List RefOp) (b : BlockMap) (c : List Value),
      l.foldl
        (fun acc p =>
          let needed := needsRefsOf vars p.1
          let incs :=
            if needed < p.2 then
              acc.1 ++ [⟨p.1, (vars p.1).nullable, p.2 - needed, some (inst + 1), none, none⟩]
            else acc.1
          let cur := bmSet acc.2.1 p.1 needed
          let toE := if needed = 0 then acc.2.2 ++ [p.1] else acc.2.2
          (incs, cur, toE))
        (a, b, c)
      = (l.foldl
          (fun a p =>
            if needsRefsOf vars p.1 < p.2 then
              a ++ [⟨p.1, (vars p.1).nullable, p.2 - needsRefsOf vars p.1, some (inst + 1),
                none, none⟩]
            else a)
          a,
         bmSetFold vars l b,
         l.foldl (fun c p => if needsRefsOf vars p.1 = 0 then c ++ [p.1] else c) c) := by
  intro l
  induction l with
  | nil => intro a b c; rfl
  | cons p rest ih =>
    intro a b c
    exact ih
      (if needsRefsOf vars p.1 < p.2 then
        a ++ [⟨p.1, (vars p.1).nullable, p.2 - needsRefsOf vars p.1, some (inst + 1), none, none⟩]
      else a)
      (bmSet b p.1 (needsRefsOf vars p.1))
      (if needsRefsOf vars p.1 = 0 then c ++ [p.1] else c)

theorem foldl_append_ite_refop (vars : Value → VarState) (inst : Nat) :
    ∀ (l : List (Value × Nat)) (a : List RefOp),
      l.foldl
        (fun a p =>
          if needsRefsOf vars p.1 < p.2 then
            a ++ [⟨p.1, (vars p.1).nullable, p.2 - needsRefsOf vars p.1, some (inst + 1),
              none, none⟩]
          else a)
        a
      = a ++ flushIncrefs vars inst l := by
  intro l
  induction l with
  | nil => intro a; simp [flushIncrefs]
  | cons p rest ih =>
    intro a
    rw [List.foldl_cons]
    by_cases h : needsRefsOf vars p.1 < p.2
    · rw [if_pos h, ih]
      simp [flushIncrefs, h]
    · rw [if_neg h, ih]
      simp [flushIncrefs, h]

theorem foldl_append_ite_key (vars : Value → VarState) :
    ∀ (l : List (Value × Nat)) (c : List Value),
      l.foldl (fun c p => if needsRefsOf vars p.1 = 0 then c ++ [p.1] else c) c
      = c ++ flushToErase vars l := by
  intro l
  induction l with
  | nil => intro c; simp [flushToErase]
  | cons p rest ih =>
    intro c
    rw [List.foldl_cons]
    by_cases h : needsRefsOf vars p.1 = 0
    · rw [if_pos h, ih]
      simp [flushToErase, h]
    · rw [if_neg h, ih]
      simp [flushToErase, h]

theorem bmFind_bmSet (c : BlockMap) (k : Value) (n : Nat) (v : Value) :
    bmFind (bmSet c k n) v = if k = v then some n else bmFind c v := by
  induction c with
  | nil => simp [bmSet, bmFind]
  | cons p rest ih =>
    simp only [bmSet]
    by_cases hp : p.1 = k
    · rw [if_pos hp]
      show bmFind ((k, n) :: rest) v = if k = v then some n else bmFind (p :: rest) v
      simp only [bmFind]
      by_cases hk : k = v
      · rw [if_pos hk, if_pos hk]
      · rw [if_neg hk, if_neg hk, if_neg (show ¬ p.1 = v from fun he => hk (hp ▸ he))]
    · rw [if_neg hp]
      show bmFind (p :: bmSet rest k n) v = if k = v then some n else bmFind (p :: rest) v
      simp only [bmFind]
      by_cases hv : p.1 = v
      · have hk : ¬ k = v := fun he => hp (hv.trans he.symm)
        rw [if_pos hv, if_neg hk, if_pos hv]
      · rw [if_neg hv, ih]
        by_cases hk : k = v
        · rw [if_pos hk, if_pos hk]
        · rw [if_neg hk, if_neg hk, if_neg hv]

theorem bmFind_bmSetFold (vars : Value → VarState) :
    ∀ (l : List (Value × Nat)) (cur : BlockMap) (v : Value),
      bmFind (bmSetFold vars l cur) v
        = if v ∈ l.map Prod.fst then some (needsRefsOf vars v) else bmFind cur v := by
  intro l
  induction l with
  | nil => intro cur v; simp [bmSetFold]
  | cons p rest ih =>
    intro cur v
    have hstep : bmSetFold vars (p :: rest) cur
        = bmSetFold vars rest (bmSet cur p.1 (needsRefsOf vars p.1)) := rfl
    rw [hstep, ih]
    by_cases hm : v ∈ rest.map Prod.fst
    · rw [if_pos hm, if_pos (by simp [hm])]
    · rw [if_neg hm, bmFind_bmSet]
      by_cases hv : p.1 = v
      · rw [if_pos hv, if_pos (by simp [hv.symm]), hv]
      · rw [if_neg hv, if_neg ?_]
        simp only [List.map_cons, List.mem_cons]
        intro hcon
        rcases hcon with h1 | h1
        · exact hv h1.symm
        · exact hm h1

theorem bmFind_bmErase (c : BlockMap) (k : Value) (v : Value) :
    bmFind (bmErase c k) v = if v = k then none else bmFind c v := by
  induction c with
  | nil => simp [bmErase, bmFind]
  | cons p rest ih =>
    simp only [bmErase]
    by_cases hp : p.1 = k
    · rw [if_pos hp, ih]
      by_cases hv : v = k
      · rw [if_pos hv, if_pos hv]
      · rw [if_neg hv, if_neg hv]
        show bmFind rest v = bmFind (p :: rest) v
        simp only [bmFind]
        rw [if_neg (show ¬ p.1 = v from fun he => hv ((he.symm.trans hp) : v = k))]
    · rw [if_neg hp]
      show bmFind (p :: bmErase rest k) v = if v = k then none else bmFind (p :: rest) v
      simp only [bmFind]
      by_cases hv : p.1 = v
      · have hk : ¬ v = k := fun he => hp (hv.trans he)
        rw [if_pos hv, if_neg hk, if_pos hv]
      · rw [if_neg hv, ih]
        by_cases hk : v = k
        · rw [if_pos hk, if_pos hk]
        · rw [if_neg hk, if_neg hk, if_neg hv]

theorem bmFind_foldl_bmErase :
    ∀ (l : List Value) (c : BlockMap) (v : Value),
      bmFind (l.foldl bmErase c) v = if v ∈ l then none else bmFind c v := by
  intro l
  induction l with
  | nil => intro c v; simp
  | cons k rest ih =>
    intro c v
    rw [List.foldl_cons, ih, bmFind_bmErase]
    by_cases hm : v ∈ rest
    · rw [if_pos hm, if_pos (List.mem_cons_of_mem _ hm)]
    · rw [if_neg hm]
      by_cases hv : v = k
      · rw [if_pos hv, if_pos (by rw [hv]; exact List.mem_cons_self _ _)]
      · rw [if_neg hv, if_neg ?_]
        intro hcon
        rcases List.mem_cons.mp hcon with h1 | h1
        · exact hv h1
        · exact hm h1

theorem mem_flushToErase_iff (vars : Value → VarState) (m : BlockMap) (v : Value) :
    v ∈ flushToErase vars m ↔ v ∈ bmKeys m ∧ needsRefsOf vars v = 0 := by
  unfold flushToErase
  rw [List.mem_filterMap]
  constructor
  · intro ⟨p, hp, hf⟩
    by_cases h : needsRefsOf vars p.1 = 0
    · rw [if_pos h] at hf
      cases hf
      exact ⟨List.mem_map_of_mem Prod.fst hp, h⟩
    · rw [if_neg h] at hf
      exact Option.noConfusion hf
  · intro ⟨hk, hz⟩
    rcases List.mem_map.mp hk with ⟨p, hp, hv⟩
    exact ⟨p, hp, by rw [hv, if_pos (hv ▸ hz)]⟩

/-- **C4**: at a may-raise instruction, every `ending_refs` entry holding more
than its structural need (1 if OWNED, 0 if BORROWED) has an increment of
exactly the surplus scheduled immediately after the instruction, and the map
is normalized down to the structural need, entries of need 0 being removed
entirely. -/
theorem c4_may_raise_flush (vars : Value → VarState) (inst : Nat) (m : BlockMap) :
    (mayThrowFlush vars inst m).1 = flushIncrefs vars inst m
    ∧ (∀ p ∈ m, needsRefsOf vars p.1 < p.2 →
        (⟨p.1, (vars p.1).nullable, p.2 - needsRefsOf vars p.1, some (inst + 1), none, none⟩
          : RefOp) ∈ (mayThrowFlush vars inst m).1)
    ∧ (∀ v, bmFind (mayThrowFlush vars inst m).2 v
        = (match bmFind m v with
           | none => none
           | some _ =>
             if needsRefsOf vars v = 0 then none else some (needsRefsOf vars v))) := by
  have hsplit :
      mayThrowFlushLoop vars inst m
        = (flushIncrefs vars inst m, bmSetFold vars m m, flushToErase vars m) := by
    unfold mayThrowFlushLoop
    rw [mayThrowFlushLoop_split vars inst m [] m []]
    rw [foldl_append_ite_refop vars inst m [], foldl_append_ite_key vars m []]
    rw [List.nil_append, List.nil_append]
  have h1 : (mayThrowFlush vars inst m).1 = flushIncrefs vars inst m := by
    unfold mayThrowFlush
    rw [hsplit]
  have h2 : (mayThrowFlush vars inst m).2
      = (flushToErase vars m).foldl bmErase (bmSetFold vars m m) := by
    unfold mayThrowFlush
    rw [hsplit]
  refine ⟨h1, ?_, ?_⟩
  · intro p hp hlt
    rw [h1]
    unfold flushIncrefs
    rw [List.mem_filterMap]
    exact ⟨p, hp, by rw [if_pos hlt]⟩
  · intro v
    rw [h2, bmFind_foldl_bmErase, bmFind_bmSetFold]
    cases hf : bmFind m v with
    | none =>
      have hnk : v ∉ bmKeys m := bmFind_eq_none_iff.mp hf
      have hnk2 : ¬ v ∈ List.map Prod.fst m := hnk
      rw [if_neg (fun hc => hnk ((mem_flushToErase_iff vars m v).mp hc).1), if_neg hnk2]
    | some c =>
      have hk : v ∈ bmKeys m := mem_bmKeys_iff.mpr ⟨c, hf⟩
      have hk2 : v ∈ List.map Prod.fst m := hk
      by_cases hz : needsRefsOf vars v = 0
      · rw [if_pos ((mem_flushToErase_iff vars m v).mpr ⟨hk, hz⟩)]
        simp [hz]
      · rw [if_neg (fun hc => hz ((mem_flushToErase_iff vars m v).mp hc).2), if_pos hk2]
        simp [hz]

/-- C4 witness: the flush of a map holding two references on an OWNED value
and one on a BORROWED value at instruction 5. -/
theorem c4_witness :
    (⟨vInst0, (varsAllOwned vInst0).nullable, 2 - needsRefsOf varsAllOwned vInst0,
      some 6, none, none⟩ : RefOp)
      ∈ (mayThrowFlush varsAllOwned 5 [(vInst0, 2)]).1 :=
  (c4_may_raise_flush varsAllOwned 5 [(vInst0, 2)]).2.1 (vInst0, 2) (by decide) (by decide)

theorem popBest_mem (prio : Nat → Nat) :
    ∀ (xs : List Nat) (x : Nat), popBest prio x xs ∈ x :: xs := by
  intro xs
  induction xs with
  | nil => intro x; simp [popBest]
  | cons y rest ih =>
    intro x
    have hstep : popBest prio x (y :: rest) = popBest prio (if prio y < prio x then y else x) rest :=
      rfl
    rw [hstep]
    rcases List.mem_cons.mp (ih (if prio y < prio x then y else x)) with h1 | h1
    · rw [h1]
      by_cases hc : prio y < prio x
      · rw [if_pos hc]
        exact List.mem_cons_of_mem _ (List.mem_cons_self _ _)
      · rw [if_neg hc]
        exact List.mem_cons_self _ _
    · exact List.mem_cons_of_mem _ (List.mem_cons_of_mem _ h1)

theorem popBest_le (prio : Nat → Nat) :
    ∀ (xs : List Nat) (x y : Nat), y ∈ x :: xs → prio (popBest prio x xs) ≤ prio y := by
  intro xs
  induction xs with
  | nil =>
    intro x y hy
    rcases List.mem_cons.mp hy with h1 | h1
    · rw [h1]
      exact Nat.le_refl _
    · simp at h1
  | cons z rest ih =>
    intro x y hy
    have hstep : popBest prio x (z :: rest) = popBest prio (if prio z < prio x then z else x) rest :=
      rfl
    have hx : prio (if prio z < prio x then z else x) ≤ prio x := by
      by_cases hc : prio z < prio x
      · rw [if_pos hc]
        exact Nat.le_of_lt hc
      · rw [if_neg hc]
    have hz : prio (if prio z < prio x then z else x) ≤ prio z := by
      by_cases hc : prio z < prio x
      · rw [if_pos hc]
      · rw [if_neg hc]
        exact Nat.le_of_not_lt hc
    have hself : prio (popBest prio (if prio z < prio x then z else x) rest)
        ≤ prio (if prio z < prio x then z else x) :=
      ih _ _ (List.mem_cons_self _ _)
    rw [hstep]
    rcases List.mem_cons.mp hy with h1 | h1
    · rw [h1]
      exact Nat.le_trans hself hx
    · rcases List.mem_cons.mp h1 with h2 | h2
      · rw [h2]
        exact Nat.le_trans hself hz
      · exact ih _ y (List.mem_cons_of_mem _ h2)

theorem drainFuel_perm (prio : Nat → Nat) :
    ∀ (fuel : Nat) (q1 q2 : List Nat), q1.length ≤ fuel → q1.Perm q2 →
      (∀ a ∈ q1, ∀ b ∈ q1, prio a = prio b → a = b) →
      drainFuel prio fuel q1 = drainFuel prio fuel q2 := by
  intro fuel
  induction fuel with
  | zero => intro q1 q2 _ _ _; rfl
  | succ fuel ih =>
    intro q1 q2 hlen hperm hinj
    cases q1 with
    | nil =>
      have h2 : q2 = [] := List.Perm.eq_nil hperm.symm
      rw [h2]
    | cons x xs =>
      cases q2 with
      | nil => exact absurd (List.Perm.eq_nil hperm) (by simp)
      | cons y ys =>
        have hm1 : popBest prio x xs ∈ x :: xs := popBest_mem prio xs x
        have hm2 : popBest prio y ys ∈ y :: ys := popBest_mem prio ys y
        have hm2l : popBest prio y ys ∈ x :: xs := hperm.mem_iff.mpr hm2
        have hle1 : prio (popBest prio x xs) ≤ prio (popBest prio y ys) :=
          popBest_le prio xs x _ hm2l
        have hle2 : prio (popBest prio y ys) ≤ prio (popBest prio x xs) :=
          popBest_le prio ys y _ (hperm.mem_iff.mp hm1)
        have heq : popBest prio x xs = popBest prio y ys :=
          hinj _ hm1 _ hm2l (Nat.le_antisymm hle1 hle2)
        have h1 : drainFuel prio (fuel + 1) (x :: xs)
            = popBest prio x xs :: drainFuel prio fuel ((x :: xs).erase (popBest prio x xs)) :=
          rfl
        have h2 : drainFuel prio (fuel + 1) (y :: ys)
            = popBest prio y ys :: drainFuel prio fuel ((y :: ys).erase (popBest prio y ys)) :=
          rfl
        rw [h1, h2, heq]
        congr 1
        apply ih
        · rw [List.length_erase_of_mem (heq ▸ hm1)]
          simp only [List.length_cons] at hlen ⊢
          omega
        · exact hperm.erase _
        · intro a ha b hb hab
          exact hinj a (List.mem_of_mem_erase ha) b (List.mem_of_mem_erase hb) hab

/-- **C6**: the worklist scheduling is deterministic and keys only on the
stable priorities: two `BlockOrderer` queues holding the same set of blocks
(in any internal order, as a hash-seeded or address-keyed container might
present them) with injective priorities drain in exactly the same order, so
the solver visits blocks identically on every run; per-value iteration state
(`OrderedMap`) is keyed on insertion order by construction. -/
theorem c6_orderer_deterministic (prio : Nat → Nat) (q1 q2 : List Nat)
    (hperm : q1.Perm q2)
    (hinj : ∀ a ∈ q1, ∀ b ∈ q1, prio a = prio b → a = b) :
    drainOrderer prio q1 = drainOrderer prio q2 := by
  unfold drainOrderer
  rw [← hperm.length_eq]
  exact drainFuel_perm prio q1.length q1 q2 (Nat.le_refl _) hperm hinj

/-- C6 witness: two enqueueing orders of the blocks 0, 1, 2 drain
identically. -/
theorem c6_witness : drainOrderer (fun n => n) [2, 0, 1] = drainOrderer (fun n => n) [0, 1, 2] :=
  c6_orderer_deterministic (fun n => n) [2, 0, 1] [0, 1, 2] (by decide) (by decide)

theorem entryLoop_spec (vars : Value → VarState) (bbIdx : Nat) :
    ∀ (l : List (Value × Nat)) (acc : List RefOp),
      (∀ p ∈ l, 0 < p.2
        ∧ (isGlobalVariable p.1 || isLLVMConstant p.1 || isFuncArg p.1) = true
        ∧ (vars p.1).reftype = RefType.BORROWED) →
      entryLoop vars bbIdx l acc
        = Except.ok
            (acc ++ l.map (fun p => ⟨p.1, (vars p.1).nullable, p.2, none, some bbIdx, none⟩)) := by
  intro l
  induction l with
  | nil => intro acc _; simp [entryLoop]
  | cons p rest ih =>
    intro acc hcond
    obtain ⟨hpos, hcat, hbor⟩ := hcond p (List.mem_cons_self _ _)
    have h0 : ¬ p.2 = 0 := Nat.pos_iff_ne_zero.mp hpos
    have h1 : ¬ (isGlobalVariable p.1 = false ∧ isLLVMConstant p.1 = false
        ∧ isFuncArg p.1 = false) := by
      intro ⟨ha, hb, hc⟩
      rw [ha, hb, hc] at hcat
      simp at hcat
    have h2 : ¬ ¬ (vars p.1).reftype = RefType.BORROWED := fun hc => hc hbor
    simp only [entryLoop, if_neg h0, if_neg h1, if_neg h2]
    rw [ih _ (fun q hq => hcond q (List.mem_cons_of_mem _ hq))]
    simp

theorem entryLoop_ok (vars : Value → VarState) (bbIdx : Nat) :
    ∀ (l : List (Value × Nat)) (acc : List RefOp) (ops : List RefOp),
      entryLoop vars bbIdx l acc = Except.ok ops →
      ∀ p ∈ l, 0 < p.2
        ∧ (isGlobalVariable p.1 || isLLVMConstant p.1 || isFuncArg p.1) = true
        ∧ (vars p.1).reftype = RefType.BORROWED := by
  intro l
  induction l with
  | nil => intro acc ops _ p hp; simp at hp
  | cons p rest ih =>
    intro acc ops h q hq
    simp only [entryLoop] at h
    by_cases h0 : p.2 = 0
    · rw [if_pos h0] at h
      exact Except.noConfusion h
    rw [if_neg h0] at h
    by_cases h1 : isGlobalVariable p.1 = false ∧ isLLVMConstant p.1 = false
        ∧ isFuncArg p.1 = false
    · rw [if_pos h1] at h
      exact Except.noConfusion h
    rw [if_neg h1] at h
    by_cases h2 : ¬ (vars p.1).reftype = RefType.BORROWED
    · rw [if_pos h2] at h
      exact Except.noConfusion h
    rw [if_neg h2] at h
    rcases List.mem_cons.mp hq with hqp | hqr
    · subst hqp
      refine ⟨Nat.pos_of_ne_zero h0, ?_, Decidable.not_not.mp h2⟩
      cases hga : isGlobalVariable q.1 <;> cases hlc : isLLVMConstant q.1 <;>
        cases hfa : isFuncArg q.1 <;> simp_all
    · exact ih _ _ h q hqr

/-- **C7**: during entry-block processing, every value remaining in
`ending_refs` must be a function argument, a global variable, or a constant,
and must be BORROWED -- anything else is a hard error; on success an increment
of each value's full count is scheduled on the entry block and `ending_refs`
is cleared to empty. -/
theorem c7_entry_block (vars : Value → VarState) (bbIdx : Nat) (m : BlockMap)
    (increfs : List RefOp) :
    ((entryBlockHandling vars bbIdx m increfs).isOk = true
      ↔ ∀ p ∈ m, 0 < p.2
          ∧ (isGlobalVariable p.1 || isLLVMConstant p.1 || isFuncArg p.1) = true
          ∧ (vars p.1).reftype = RefType.BORROWED)
    ∧ (∀ ops rest, entryBlockHandling vars bbIdx m increfs = Except.ok (ops, rest) →
        ops = increfs
            ++ m.map (fun p => ⟨p.1, (vars p.1).nullable, p.2, none, some bbIdx, none⟩)
        ∧ rest = []) := by
  constructor
  · constructor
    · intro hok
      cases he : entryLoop vars bbIdx m increfs with
      | error e =>
        unfold entryBlockHandling at hok
        rw [he] at hok
        simp [Except.isOk, Except.toBool] at hok
      | ok ops => exact entryLoop_ok vars bbIdx m increfs ops he
    · intro hcond
      unfold entryBlockHandling
      rw [entryLoop_spec vars bbIdx m increfs hcond]
      simp [Except.isOk, Except.toBool]
  · intro ops rest hok
    unfold entryBlockHandling at hok
    cases he : entryLoop vars bbIdx m increfs with
    | error e =>
      rw [he] at hok
      exact Except.noConfusion hok
    | ok ops2 =>
      rw [he] at hok
      have hpair : (ops2, ([] : BlockMap)) = (ops, rest) := by
        injection hok
      have hcond := entryLoop_ok vars bbIdx m increfs ops2 he
      have hspec := entryLoop_spec vars bbIdx m increfs hcond
      have hops2 : ops2 = increfs
          ++ m.map (fun p => ⟨p.1, (vars p.1).nullable, p.2, none, some bbIdx, none⟩) := by
        injection he.symm.trans hspec
      obtain ⟨hop, hrest⟩ := Prod.mk.injEq .. ▸ hpair
      exact ⟨hop ▸ hops2, hrest.symm⟩

/-- C7 witness: a single BORROWED argument with count 1 passes the entry-block
audit. -/
theorem c7_witness : (entryBlockHandling varsAllBorrowed 0 [(vArg0, 1)] []).isOk = true :=
  (c7_entry_block varsAllBorrowed 0 [(vArg0, 1)] []).1.mpr (by decide)

theorem firstNonPhiAlloca_spec :
    ∀ (l : List InstKind) (i : Nat), firstNonPhiAlloca l = some i →
      (∃ k, l[i]? = some k ∧ ¬(k = InstKind.phi ∨ k = InstKind.alloca))
      ∧ ∀ j < i, ∃ k2, l[j]? = some k2 ∧ (k2 = InstKind.phi ∨ k2 = InstKind.alloca) := by
  intro l
  induction l with
  | nil => intro i h; simp [firstNonPhiAlloca] at h
  | cons k rest ih =>
    intro i h
    simp only [firstNonPhiAlloca] at h
    by_cases hk : k = InstKind.phi ∨ k = InstKind.alloca
    · rw [if_pos hk] at h
      cases hr : firstNonPhiAlloca rest with
      | none =>
        rw [hr] at h
        simp at h
      | some i2 =>
        rw [hr] at h
        simp only [Option.map_some'] at h
        have hi : i2 + 1 = i := by injection h
        subst hi
        obtain ⟨⟨k1, hk1, hk1n⟩, hbefore⟩ := ih i2 hr
        constructor
        · exact ⟨k1, by simpa using hk1, hk1n⟩
        · intro j hj
          cases j with
          | zero => exact ⟨k, by simp, hk⟩
          | succ j2 =>
            obtain ⟨k2, hk2, hk2p⟩ := hbefore j2 (by omega)
            exact ⟨k2, by simpa using hk2, hk2p⟩
    · rw [if_neg hk] at h
      have hi : (0 : Nat) = i := by injection h
      subst hi
      refine ⟨⟨k, by simp, hk⟩, ?_⟩
      intro j hj
      exact absurd hj (Nat.not_lt_zero j)

theorem firstNonPhiAlloca_isSome :
    ∀ (l : List InstKind), (∃ k ∈ l, ¬(k = InstKind.phi ∨ k = InstKind.alloca)) →
      (firstNonPhiAlloca l).isSome = true := by
  intro l
  induction l with
  | nil => intro ⟨k, hk, _⟩; simp at hk
  | cons k0 rest ih =>
    intro ⟨k, hk, hkn⟩
    simp only [firstNonPhiAlloca]
    by_cases hk0 : k0 = InstKind.phi ∨ k0 = InstKind.alloca
    · rw [if_pos hk0]
      rcases List.mem_cons.mp hk with h1 | h1
      · subst h1
        exact absurd hk0 hkn
      · have hs := ih ⟨k, h1, hkn⟩
        cases hfr : firstNonPhiAlloca rest with
        | none =>
          rw [hfr] at hs
          simp at hs
        | some i => simp
    · rw [if_neg hk0]
      simp

theorem cacheFind_append_self (c : List ((Nat × Option Nat) × InsPoint))
    (k : Nat × Option Nat) (p : InsPoint) (h : cacheFind c k = none) :
    cacheFind (c ++ [(k, p)]) k = some p := by
  induction c with
  | nil => simp [cacheFind]
  | cons q rest ih =>
    simp only [cacheFind] at h
    simp only [List.cons_append, cacheFind]
    by_cases hq : q.1 = k
    · rw [if_pos hq] at h
      exact Option.noConfusion h
    · rw [if_neg hq] at h ⊢
      exact ih h

/-- **C8**: for an edge site whose destination has exactly one predecessor,
`findInsertionPoint` returns the destination's first non-phi non-alloca
instruction -- except that a destination beginning with a landing pad yields
its fourth instruction -- without splitting any edge, and caches the result
under `(to, from)` so that a second query with the same key returns the
identical instruction and leaves the state unchanged. -/
theorem c8_insertion_point_single_pred (BB : BBlock) (fr : Option Nat) (st : FIPState)
    (h1 : BB.numPreds = 1)
    (h2 : cacheFind st.cache (BB.idx, fr) = none)
    (h3 : BB.insts.head? = some InstKind.landingpad → 3 < BB.insts.length)
    (h4 : BB.insts.head? ≠ some InstKind.landingpad →
      ∃ k ∈ BB.insts, ¬(k = InstKind.phi ∨ k = InstKind.alloca)) :
    ∃ pt st2, findInsertionPoint BB fr st = Except.ok (pt, st2)
      ∧ st2.splits = st.splits
      ∧ pt.blockIdx = BB.idx
      ∧ (BB.insts.head? = some InstKind.landingpad → pt.pos = 3)
      ∧ (BB.insts.head? ≠ some InstKind.landingpad →
          (∃ k, BB.insts[pt.pos]? = some k ∧ ¬(k = InstKind.phi ∨ k = InstKind.alloca))
          ∧ ∀ j < pt.pos, ∃ k2, BB.insts[j]? = some k2
              ∧ (k2 = InstKind.phi ∨ k2 = InstKind.alloca))
      ∧ findInsertionPoint BB fr st2 = Except.ok (pt, st2) := by
  have hnp : ¬ 1 < BB.numPreds := by
    rw [h1]
    exact Nat.lt_irrefl 1
  rcases hI : BB.insts with _ | ⟨k0, rest⟩
  · exfalso
    obtain ⟨k, hk, _⟩ := h4 (by rw [hI]; simp)
    rw [hI] at hk
    simp at hk
  case cons =>
    cases k0
    case landingpad =>
      have hhead : BB.insts.head? = some InstKind.landingpad := by
        rw [hI]
        rfl
      have hlen : 3 < BB.insts.length := h3 hhead
      have hres : findInsertionPoint BB fr st
          = Except.ok (⟨BB.idx, 3⟩,
              ⟨st.cache ++ [((BB.idx, fr), ⟨BB.idx, 3⟩)], st.splits, st.nextFresh⟩) := by
        simp only [findInsertionPoint]
        rw [h2, hI]
        rw [hI] at hlen
        simp only [List.length_cons] at hlen
        simp [hnp, show 2 < rest.length by omega]
      refine ⟨⟨BB.idx, 3⟩, _, hres, rfl, rfl, fun _ => rfl, fun hc => absurd rfl hc, ?_⟩
      have hcache : cacheFind (st.cache ++ [((BB.idx, fr), ⟨BB.idx, 3⟩)]) (BB.idx, fr)
          = some ⟨BB.idx, 3⟩ := cacheFind_append_self st.cache _ _ h2
      simp only [findInsertionPoint]
      rw [hcache]
    all_goals (
      have hhead : BB.insts.head? ≠ some InstKind.landingpad := by
        rw [hI]
        simp
      obtain ⟨i, hi⟩ := Option.isSome_iff_exists.mp (firstNonPhiAlloca_isSome _ (h4 hhead))
      have hspec := firstNonPhiAlloca_spec BB.insts i hi
      rw [hI] at hspec
      have hres : findInsertionPoint BB fr st
          = Except.ok (⟨BB.idx, i⟩,
              ⟨st.cache ++ [((BB.idx, fr), ⟨BB.idx, i⟩)], st.splits, st.nextFresh⟩) := by
        simp only [findInsertionPoint]
        rw [h2, hI]
        rw [hI] at hi
        simp [hnp, hi]
      refine ⟨⟨BB.idx, i⟩, _, hres, rfl, rfl, fun hc => absurd hc (by simp), fun _ => hspec, ?_⟩
      have hcache : cacheFind (st.cache ++ [((BB.idx, fr), ⟨BB.idx, i⟩)]) (BB.idx, fr)
          = some ⟨BB.idx, i⟩ := cacheFind_append_self st.cache _ _ h2
      simp only [findInsertionPoint]
      rw [hcache])

/-- C8 witness: a single-predecessor block `phi, alloca, other` yields
position 2, and the repeated query returns the cached point unchanged. -/
theorem c8_witness :
    ∃ pt st2,
      findInsertionPoint
          ⟨7, [InstKind.phi, InstKind.alloca, InstKind.otherInst], 1⟩ (some 3)
          ⟨[], [], 100⟩
        = Except.ok (pt, st2)
      ∧ st2.splits = ([] : List (Nat × Nat))
      ∧ pt.blockIdx = 7
      ∧ (([InstKind.phi, InstKind.alloca, InstKind.otherInst] : List InstKind).head?
          = some InstKind.landingpad → pt.pos = 3)
      ∧ (([InstKind.phi, InstKind.alloca, InstKind.otherInst] : List InstKind).head?
          ≠ some InstKind.landingpad →
          (∃ k, ([InstKind.phi, InstKind.alloca, InstKind.otherInst] : List InstKind)[pt.pos]?
              = some k ∧ ¬(k = InstKind.phi ∨ k = InstKind.alloca))
          ∧ ∀ j < pt.pos,
              ∃ k2, ([InstKind.phi, InstKind.alloca, InstKind.otherInst] : List InstKind)[j]?
                  = some k2 ∧ (k2 = InstKind.phi ∨ k2 = InstKind.alloca))
      ∧ findInsertionPoint
          ⟨7, [InstKind.phi, InstKind.alloca, InstKind.otherInst], 1⟩ (some 3) st2
        = Except.ok (pt, st2) :=
  c8_insertion_point_single_pred
    ⟨7, [InstKind.phi, InstKind.alloca, InstKind.otherInst], 1⟩ (some 3) ⟨[], [], 100⟩
    (by decide) (by decide) (by decide) (by decide)

end Refcounts
